import Mathlib

/-!
Verification of the OHLCV price API (`src/main.py`) against its specification.

The development shallowly embeds the pure logic of the two endpoints
`get_price` and `get_by_key`: symbol normalization, relative-range parsing,
day enumeration, the two partition-prefix encoding variants, the
budget-bounded day/variant/page/object retrieval loop with local recovery
of decode failures, the no-data check, and the timestamp-column selection
with its tz-aware/naive comparison (which raises whenever a candidate
column is found).

Modelling conventions:
* Python strings are `List Char` (`Str`); `str.strip`/`upper`/`lower` are
  modelled over ASCII.
* Instants (`datetime`) are integers counting seconds; `timedelta(days=k)`
  is `k * 86400` seconds and `.date()` is floor division by 86400.
  Calendar dates (`.year`, `.month`, `.day`) come from the standard
  civil-from-days conversion on the day number (proleptic Gregorian,
  matching Python's `datetime.date`).
* The S3 collaborator is a `Store`: a paginated listing per prefix,
  key existence, and the decode outcome of each object's bytes
  (`none` = `pyarrow` raises on those bytes).  Cell values of decoded
  tables are an abstract type `α`; the handler also carries an abstract
  cell parser `parse : α → Option Int` mirroring `pd.to_datetime` on
  cells, though the row filter raises before consuming any cell.
* Python exceptions surfacing from an endpoint are constructors of `Err`;
  `HTTPException(400/404)` and unhandled exceptions are distinguished
  by constructor.
-/

namespace OhlcvApi

/-- Python strings, modelled as lists of characters. -/
abbrev Str := List Char

/-! ## Character helpers (ASCII model of `str` methods) -/

/-- Whitespace as recognised by Python `str.strip`. -/
def pySpace (c : Char) : Bool :=
  c = ' ' || c = '\t' || c = '\n' || c = '\x0d' || c = '\x0b' || c = '\x0c'

/-- ASCII model of Python `str.upper` on one character. -/
def upChar (c : Char) : Char :=
  match c with
  | 'a' => 'A' | 'b' => 'B' | 'c' => 'C' | 'd' => 'D' | 'e' => 'E' | 'f' => 'F'
  | 'g' => 'G' | 'h' => 'H' | 'i' => 'I' | 'j' => 'J' | 'k' => 'K' | 'l' => 'L'
  | 'm' => 'M' | 'n' => 'N' | 'o' => 'O' | 'p' => 'P' | 'q' => 'Q' | 'r' => 'R'
  | 's' => 'S' | 't' => 'T' | 'u' => 'U' | 'v' => 'V' | 'w' => 'W' | 'x' => 'X'
  | 'y' => 'Y' | 'z' => 'Z'
  | c => c

/-- ASCII model of Python `str.lower` on one character. -/
def lowChar (c : Char) : Char :=
  match c with
  | 'A' => 'a' | 'B' => 'b' | 'C' => 'c' | 'D' => 'd' | 'E' => 'e' | 'F' => 'f'
  | 'G' => 'g' | 'H' => 'h' | 'I' => 'i' | 'J' => 'j' | 'K' => 'k' | 'L' => 'l'
  | 'M' => 'm' | 'N' => 'n' | 'O' => 'o' | 'P' => 'p' | 'Q' => 'q' | 'R' => 'r'
  | 'S' => 's' | 'T' => 't' | 'U' => 'u' | 'V' => 'v' | 'W' => 'w' | 'X' => 'x'
  | 'Y' => 'y' | 'Z' => 'z'
  | c => c

/-! ## String helpers -/

/-- Python `str.upper` (ASCII model). -/
def upperC (s : Str) : Str := s.map upChar

/-- Python `str.lower` (ASCII model). -/
def lowerC (s : Str) : Str := s.map lowChar

/-- Python `str.lstrip()`. -/
def lstripC (s : Str) : Str := s.dropWhile pySpace

/-- Python `str.rstrip()`. -/
def rstripC (s : Str) : Str := (s.reverse.dropWhile pySpace).reverse

/-- Python `str.strip()`. -/
def stripC (s : Str) : Str := rstripC (lstripC s)

/-- Python `str.split(",")`: split at every comma, keeping empty pieces. -/
def splitComma : Str → List Str
  | [] => [[]]
  | c :: rest =>
    if c = ',' then [] :: splitComma rest
    else
      match splitComma rest with
      | r :: rs => (c :: r) :: rs
      | [] => [[c]]

/-! ## Python `int(...)` on strings -/

/-- Checker for the tail of a Python decimal integer literal: digits with
single underscores allowed between digits.  `afterUnd` records whether the
previous character was an underscore (then another underscore or the end
of the string is rejected). -/
def digitsRun (afterUnd : Bool) : Str → Bool
  | [] => !afterUnd
  | c :: rest =>
    if c = '_' then !afterUnd && digitsRun true rest
    else c.isDigit && digitsRun false rest

/-- Checker for a nonempty Python decimal digit run (underscores allowed
between digits, as in `int("1_0")`). -/
def digitsOk : Str → Bool
  | [] => false
  | c :: rest => c.isDigit && digitsRun false rest

/-- Decimal value of a digit list. -/
def digitsNatVal (s : Str) : Nat :=
  s.foldl (fun a c => a * 10 + (c.toNat - 48)) 0

/-- Model of Python `int(s)` for decimal strings: optional surrounding
whitespace, optional sign, then digits (single underscores allowed between
digits); anything else raises `ValueError` (`none`). -/
def pyInt (s : Str) : Option Int :=
  match stripC s with
  | [] => none
  | c :: rest =>
    if c = '+' then
      if digitsOk rest then some ((digitsNatVal (rest.filter (fun x => !(x = '_'))) : Nat) : Int)
      else none
    else if c = '-' then
      if digitsOk rest then some (-((digitsNatVal (rest.filter (fun x => !(x = '_'))) : Nat) : Int))
      else none
    else
      if digitsOk (c :: rest) then
        some ((digitsNatVal ((c :: rest).filter (fun x => !(x = '_'))) : Nat) : Int)
      else none

/-! ## `normalize_symbol_for_bucket` (src/main.py lines 25–31) -/

/-- Model of `normalize_symbol_for_bucket(sym, exchange)`:
`s = sym.strip().upper()`; return `s` if it starts with `f"{exchange}_"`;
otherwise append `"-EQ"` unless already a suffix, then prepend the
exchange prefix. -/
def normalize_symbol_for_bucket (sym exchange : Str) : Str :=
  let s := upperC (stripC sym)
  if (exchange ++ ['_']).isPrefixOf s then s
  else if ("-EQ".data).isSuffixOf s then exchange ++ '_' :: s
  else exchange ++ '_' :: (s ++ "-EQ".data)

/-! ## Instants and calendar days

An instant is an integer count of seconds; `.date()` is the day number
(floor division by 86400, Python's `//`). -/

/-- Model of `datetime.date()` on an instant: its day number. -/
def dateOf (t : Int) : Int := t.fdiv 86400

/-- Errors an endpoint can surface.  `malformedQuery`, `malformedRange`,
`unknownUnit`, `noDataFound` and `keyNotFound` are the raised
`HTTPException`s; `indexError`, `decodeRaised` and `typeError` are
unhandled Python exceptions escaping the handler (`rng[-1]` on an empty
token, `read_parquet_bytes` outside a try on the direct-key path, and the
tz-aware/naive timestamp comparison of the row filter, respectively). -/
inductive Err where
  | malformedQuery
  | malformedRange
  | unknownUnit
  | indexError
  | noDataFound
  | keyNotFound
  | decodeRaised
  | typeError
deriving DecidableEq, Repr

instance {ε α : Type _} [DecidableEq ε] [DecidableEq α] : DecidableEq (Except ε α)
  | Except.error e, Except.error f =>
    if h : e = f then .isTrue (congrArg Except.error h)
    else .isFalse fun q => h (Except.error.inj q)
  | Except.error _, Except.ok _ => .isFalse fun q => Except.noConfusion q
  | Except.ok _, Except.error _ => .isFalse fun q => Except.noConfusion q
  | Except.ok a, Except.ok b =>
    if h : a = b then .isTrue (congrArg Except.ok h)
    else .isFalse fun q => h (Except.ok.inj q)

/-- Range parsing (src/main.py lines 50–63): take the last character as the
unit (`rng[-1].lower()`, an `IndexError` on the empty token), parse
`rng[:-1]` with `int` (`MalformedRange` on failure), then dispatch on the
unit to compute `start = now - val * unitDays * 86400`. -/
def parseRangeStart (rng : Str) (now : Int) : Except Err Int :=
  match rng.getLast? with
  | none => .error .indexError
  | some u0 =>
    let unit := lowChar u0
    match pyInt rng.dropLast with
    | none => .error .malformedRange
    | some val =>
      if unit = 'd' then .ok (now - val * 86400)
      else if unit = 'm' then .ok (now - 30 * val * 86400)
      else if unit = 'y' then .ok (now - 365 * val * 86400)
      else .error .unknownUnit

/-- Days-per-unit table of the spec (`d`→1, `m`→30, `y`→365). -/
def unitDays : Char → Nat
  | 'd' => 1
  | 'm' => 30
  | 'y' => 365
  | _ => 0

/-- Day enumeration (src/main.py line 73):
`start.date() + timedelta(days=i) for i in range((now.date() - start.date()).days + 1)`. -/
def dayRange (start now : Int) : List Int :=
  (List.range ((dateOf now - dateOf start) + 1).toNat).map
    (fun (i : Nat) => dateOf start + (i : Int))

/-- Civil (proleptic Gregorian) date of a day number: `(year, month, day)`.
Standard civil-from-days conversion, matching Python `datetime.date`. -/
def civilFromDays (z0 : Int) : Int × Nat × Nat :=
  let z := z0 + 719468
  let era : Int := z.fdiv 146097
  let doe : Int := z - era * 146097
  let yoe : Int := (doe - doe.fdiv 1460 + doe.fdiv 36524 - doe.fdiv 146096).fdiv 365
  let y : Int := yoe + era * 400
  let doy : Int := doe - (365 * yoe + yoe.fdiv 4 - yoe.fdiv 100)
  let mp : Int := (5 * doy + 2).fdiv 153
  let d : Int := doy - (153 * mp + 2).fdiv 5 + 1
  let m : Int := if mp < 10 then mp + 3 else mp - 9
  (y + (if m ≤ 2 then 1 else 0), m.toNat, d.toNat)

/-- String of a natural number, as Python prints it. -/
def natStr (n : Nat) : Str := (Nat.repr n).data

/-- String of an integer, as Python prints it. -/
def intStr (i : Int) : Str := (Int.repr i).data

/-- Python `f"{n:02d}"` for the month/day fields. -/
def pad2 (n : Nat) : Str := if n < 10 then '0' :: natStr n else natStr n

/-- The two candidate prefixes tried per day (src/main.py lines 74–83):
the templates `prefixes_to_try_template` instantiated with the timeframe,
exchange, normalized symbol and the day's civil date — first the plain
`=` separators, then the `%3D`-encoded variant. -/
def dayPfxs (tf ex sym : Str) (day : Int) : List Str :=
  let y := (civilFromDays day).1
  let m := (civilFromDays day).2.1
  let d := (civilFromDays day).2.2
  [ "processed/timeframe=".data ++ tf ++ "/exchange=".data ++ ex ++ "/symbol=".data ++ sym
      ++ "/year=".data ++ intStr y ++ "/month=".data ++ pad2 m ++ "/day=".data ++ pad2 d ++ ['/'],
    "processed/timeframe%3D".data ++ tf ++ "/exchange%3D".data ++ ex ++ "/symbol%3D".data ++ sym
      ++ "/year%3D".data ++ intStr y ++ "/month%3D".data ++ pad2 m ++ "/day%3D".data ++ pad2 d ++ ['/'] ]

/-- Specification-side template: one partition prefix with an explicit
key/value separator `sep` (`=` or `%3D`). -/
def pfxTemplate (sep tf ex sym : Str) (y : Int) (m d : Nat) : Str :=
  "processed/timeframe".data ++ sep ++ tf ++ "/exchange".data ++ sep ++ ex
    ++ "/symbol".data ++ sep ++ sym ++ "/year".data ++ sep ++ intStr y
    ++ "/month".data ++ sep ++ pad2 m ++ "/day".data ++ sep ++ pad2 d ++ ['/']

/-! ## Tables and the object store -/

/-- A decoded columnar table: column names plus rows.  A row is an
association list from column name to cell value; a column missing from a
row is an absent (`NaN`) cell. -/
structure Table (α : Type) where
  cols : List Str
  rows : List (List (Str × α))
deriving DecidableEq, Repr

/-- The object-store collaborator: paginated listing per prefix, key
existence, and the decode outcome of each key's bytes (`none` when
`pyarrow` raises on them). -/
structure Store (α : Type) where
  pages : Str → List (List Str)
  contains : Str → Bool
  decodeOf : Str → Option (Table α)

/-- Model of `key.lower().endswith(".parquet")` (src/main.py line 88). -/
def isParquetKey (k : Str) : Bool := (".parquet".data).isSuffixOf (lowerC k)

/-- State of the retrieval loop: accumulated tables (`rows` in the source),
the shared `files_read` counter, the skipped-key diagnostics, and traces of
the store interactions.  Each `listed`/`fetched` entry records the
`files_read` value at the moment of that listing / `get_object` call. -/
structure LoopSt (α : Type) where
  tables : List (Table α)
  filesRead : Nat
  skipped : List Str
  listed : List (Str × Nat)
  fetched : List (Str × Nat)
deriving DecidableEq, Repr

/-- The initial loop state. -/
def initSt (α : Type) : LoopSt α := ⟨[], 0, [], [], []⟩

/-- State after fetching `key` and decoding it successfully into `t`
(src/main.py lines 92–97): the fetch is traced, the table appended, and
the shared counter incremented. -/
def stFetchOk (s : LoopSt α) (key : Str) (t : Table α) : LoopSt α :=
  { s with
    fetched := s.fetched ++ [(key, s.filesRead)],
    tables := s.tables ++ [t],
    filesRead := s.filesRead + 1 }

/-- State after fetching `key` whose bytes fail to decode
(src/main.py lines 98–100): the fetch is traced and the key recorded as
skipped; the counter is *not* incremented. -/
def stFetchBad (s : LoopSt α) (key : Str) : LoopSt α :=
  { s with
    fetched := s.fetched ++ [(key, s.filesRead)],
    skipped := s.skipped ++ [key] }

/-- Innermost object loop (src/main.py lines 86–100): skip non-parquet
keys, break once `files_read >= max_files`, otherwise fetch; a successful
decode appends the table and increments `files_read`, a decode failure is
recorded and skipped. -/
def processPage (dec : Str → Option (Table α)) (maxFiles : Int) : List Str → LoopSt α → LoopSt α
  | [], s => s
  | key :: rest, s =>
    if isParquetKey key = false then processPage dec maxFiles rest s
    else if maxFiles ≤ (s.filesRead : Int) then s
    else
      match dec key with
      | some t => processPage dec maxFiles rest (stFetchOk s key t)
      | none => processPage dec maxFiles rest (stFetchBad s key)

/-- Page loop (src/main.py lines 85–102): process each listing page, and
break out after a page once the budget is reached. -/
def processPages (dec : Str → Option (Table α)) (maxFiles : Int) : List (List Str) → LoopSt α → LoopSt α
  | [], s => s
  | p :: rest, s =>
    let s1 := processPage dec maxFiles p s
    if maxFiles ≤ (s1.filesRead : Int) then s1 else processPages dec maxFiles rest s1

/-- Prefix-variant loop (src/main.py lines 82–104): for each candidate
prefix, paginate its listing, and break once the budget is reached. -/
def processPfxs (st : Store α) (maxFiles : Int) : List Str → LoopSt α → LoopSt α
  | [], s => s
  | pfx :: rest, s =>
    let s1 := processPages st.decodeOf maxFiles (st.pages pfx)
      { s with listed := s.listed ++ [(pfx, s.filesRead)] }
    if maxFiles ≤ (s1.filesRead : Int) then s1 else processPfxs st maxFiles rest s1

/-- Day loop (src/main.py lines 81–106): for each day of the range, try
both prefix variants, and break once the budget is reached. -/
def processDays (st : Store α) (maxFiles : Int) (tf ex sym : Str) : List Int → LoopSt α → LoopSt α
  | [], s => s
  | d :: rest, s =>
    let s1 := processPfxs st maxFiles (dayPfxs tf ex sym d) s
    if maxFiles ≤ (s1.filesRead : Int) then s1 else processDays st maxFiles tf ex sym rest s1

/-! ## Assembly and timestamp filtering -/

/-- Model of `pd.concat(rows, ignore_index=True, sort=False)` (src/main.py line 111):
the column set is the union in order of first appearance, rows are kept in
table order; rows simply lack the columns their table did not have. -/
def concatTables (ts : List (Table α)) : Table α :=
  { cols := ts.foldl (fun acc t => acc ++ t.cols.filter (fun c => !(acc.contains c))) [],
    rows := (ts.map Table.rows).flatten }

/-- The fixed timestamp-column priority list (src/main.py line 113). -/
def tsCandidates : List Str :=
  ["timestamp".data, "ts".data, "time".data, "datetime".data, "date".data]

/-- The coerce-and-filter loop over candidate column names
(src/main.py lines 113–117), as the source actually behaves.  The first
candidate present in the columns is rewritten by
`pd.to_datetime(big[cand], errors="coerce", utc=True)` (line 115) into a
tz-aware (`datetime64[ns, UTC]`) column; line 116 then compares that
column with `pd.to_datetime(start)` / `pd.to_datetime(now)`, which are
tz-naive (`start`/`now` come from `datetime.utcnow()`).  pandas refuses to
compare tz-aware with tz-naive timestamps, so this comparison raises an
unhandled `TypeError` (`none`) whenever a candidate column is present —
for any row contents, even an empty or all-`NaT` column.  Only when no
candidate column is present does the loop fall through and the table pass
unchanged. -/
def coerceFilterLoop (t : Table α) : List Str → Option (Table α)
  | [] => some t
  | cand :: rest =>
    if t.cols.contains cand then none
    else coerceFilterLoop t rest

/-- Timestamp filtering of the assembled table: `none` models the
unhandled `TypeError` of the tz-aware/naive comparison on line 116. -/
def filterTable (t : Table α) : Option (Table α) :=
  coerceFilterLoop t tsCandidates

/-! ## The `/price/get/{params}` endpoint -/

/-- Successful response of `get_price` (src/main.py lines 120–121). -/
structure PriceResp (α : Type) where
  symbol : Str
  symbol_partition : Str
  timeframe : Str
  range : Str
  rows_returned : Nat
  data : Table α
deriving DecidableEq, Repr

/-- Outcome of a `get_price` request: the HTTP result plus the store
interactions and final loop state (empty/zero when the handler raised
before reaching the store). -/
structure GPOut (α : Type) where
  result : Except Err (PriceResp α)
  listed : List (Str × Nat)
  fetched : List (Str × Nat)
  skipped : List Str
  tables : List (Table α)
  filesRead : Nat
deriving DecidableEq, Repr

/-- Outcome of a request that raised before touching the store. -/
def errOut (α : Type) (e : Err) : GPOut α :=
  { result := .error e, listed := [], fetched := [], skipped := [], tables := [], filesRead := 0 }

set_option linter.unusedVariables false in
/-- Final part of `get_price` (src/main.py lines 108–121): 404 when no
table was decoded; otherwise concatenate and run the timestamp-column
filter.  When a candidate timestamp column is present, the filter's
tz-aware/naive comparison raises an unhandled `TypeError` (see
`coerceFilterLoop`); only without such a column does the handler answer,
with all rows unfiltered.  The `parse`/`start`/`now` arguments mirror the
source's dataflow into line 116; the exception fires before any cell
value or bound is consumed. -/
def finishGP (parse : α → Option Int) (sym symp tf rng : Str) (start now : Int)
    (fin : LoopSt α) : GPOut α :=
  if fin.tables.isEmpty then
    { result := .error .noDataFound, listed := fin.listed, fetched := fin.fetched,
      skipped := fin.skipped, tables := fin.tables, filesRead := fin.filesRead }
  else
    let big := concatTables fin.tables
    match filterTable big with
    | none =>
      { result := .error .typeError, listed := fin.listed, fetched := fin.fetched,
        skipped := fin.skipped, tables := fin.tables, filesRead := fin.filesRead }
    | some filtered =>
      let resp : PriceResp α :=
        { symbol := sym, symbol_partition := symp, timeframe := tf, range := rng,
          rows_returned := filtered.rows.length, data := filtered }
      { result := .ok resp,
        listed := fin.listed, fetched := fin.fetched, skipped := fin.skipped,
        tables := fin.tables, filesRead := fin.filesRead }

/-- The `get_price` handler body on already-split parts
(src/main.py lines 43–121). -/
def get_price_parts (st : Store α) (parts : List Str) (exchange : Str) (maxFiles : Int)
    (now : Int) (parse : α → Option Int) : GPOut α :=
  match parts with
  | [sym, timeframe, rng] =>
    let symp := normalize_symbol_for_bucket sym exchange
    match parseRangeStart rng now with
    | .error e => errOut α e
    | .ok start =>
      let fin := processDays st maxFiles timeframe exchange symp (dayRange start now) (initSt α)
      finishGP parse sym symp timeframe rng start now fin
  | _ => errOut α .malformedQuery

/-- The `get_price` handler (src/main.py lines 33–121): split `params` on
commas, strip each part, and require exactly three parts. -/
def get_price (st : Store α) (params : Str) (exchange : Str) (maxFiles : Int)
    (now : Int) (parse : α → Option Int) : GPOut α :=
  get_price_parts st ((splitComma params).map stripC) exchange maxFiles now parse

/-! ## The `/price/get_by_key` endpoint -/

/-- Successful response of `get_by_key` (src/main.py line 142).  The
in-place timestamp normalization to naive timestamps only rewrites cell
values; the table shape is unchanged. -/
structure KeyResp (α : Type) where
  key : Str
  rows : Nat
  data : Table α
deriving DecidableEq, Repr

/-- The `get_by_key` handler (src/main.py lines 123–142): 404 when the key
is absent (`NoSuchKey`); the subsequent `read_parquet_bytes` call is *not*
wrapped in a try/except, so a decode failure escapes as an unhandled
exception (`decodeRaised`). -/
def get_by_key (st : Store α) (key : Str) : Except Err (KeyResp α) :=
  if st.contains key = false then .error .keyNotFound
  else
    match st.decodeOf key with
    | none => .error .decodeRaised
    | some df => .ok { key := key, rows := df.rows.length, data := df }

/-! ## Concrete instances used by witnesses and counterexamples -/

/-- A store with no objects at all. -/
def emptyStore : Store Nat :=
  { pages := fun _ => [], contains := fun _ => false, decodeOf := fun _ => none }

/-- A trivial cell parser for concrete runs: every cell is a timestamp. -/
def idParse : Nat → Option Int := fun n => some (n : Int)

/-- One-column, one-row table holding cell value `n`, used as decoded
content in concrete stores. -/
def natTable (n : Nat) : Table Nat :=
  { cols := ["timestamp".data], rows := [[("timestamp".data, n)]] }

/-- A store whose day-1 plain prefix holds one page of five parquet files,
of which `b.parquet` is corrupt (its bytes fail to decode). -/
def batchStore : Store Nat :=
  { pages := fun p =>
      if p = (dayPfxs "15m".data "NSE".data "NSE_CIPLA-EQ".data 0).headI then
        [["a.parquet".data, "b.parquet".data, "c.parquet".data, "d.parquet".data, "e.parquet".data]]
      else [],
    contains := fun _ => true,
    decodeOf := fun k =>
      if k = "b.parquet".data then none
      else if k = "a.parquet".data then some (natTable 1)
      else if k = "c.parquet".data then some (natTable 3)
      else if k = "d.parquet".data then some (natTable 4)
      else if k = "e.parquet".data then some (natTable 5)
      else none }

/-- A store containing a single corrupt object under key `k`. -/
def corruptStore : Store Nat :=
  { pages := fun _ => [], contains := fun k => k = "k".data, decodeOf := fun _ => none }

/-- One-column, one-row table with no timestamp-candidate column. -/
def plainTable : Table Nat :=
  { cols := ["price".data], rows := [[("price".data, 7)]] }

/-! ## Lemmas on the character and string helpers -/

set_option maxHeartbeats 1000000 in
theorem upChar_upChar (c : Char) : upChar (upChar c) = upChar c := by
  unfold upChar
  split <;> first
    | rfl
    | (rename_i heq
       split at heq <;>
         first
           | (exact absurd heq (by decide))
           | (subst heq; first | rfl | exact absurd rfl (by assumption)))

set_option maxHeartbeats 1000000 in
theorem pySpace_upChar (c : Char) : pySpace (upChar c) = pySpace c := by
  unfold upChar
  split <;> rfl

theorem upperC_idem (l : Str) : upperC (upperC l) = upperC l := by
  unfold upperC
  rw [List.map_map]
  exact List.map_congr_left fun c _ => upChar_upChar c

theorem lstripC_eq_self_of_head (l : Str) (h : ∀ c, l.head? = some c → pySpace c = false) :
    lstripC l = l := by
  cases l with
  | nil => rfl
  | cons a r =>
    exact List.dropWhile_cons_of_neg (by simp [h a rfl])

theorem head_not_space_of_lstrip_self (l : Str) (h : lstripC l = l) :
    ∀ c, l.head? = some c → pySpace c = false := by
  intro c hc
  cases l with
  | nil => simp at hc
  | cons a r =>
    have ha : a = c := by simpa using hc
    subst ha
    by_contra hp
    simp only [Bool.not_eq_false] at hp
    have h2 : lstripC (a :: r) = lstripC r := List.dropWhile_cons_of_pos hp
    rw [h] at h2
    have hlen : (a :: r).length ≤ r.length := by
      rw [h2]
      exact (List.dropWhile_sublist pySpace).length_le
    simp at hlen

theorem rstripC_prefix_decomp (l : Str) : ∃ t, l = rstripC l ++ t := by
  obtain ⟨t, ht⟩ := List.dropWhile_suffix (l := l.reverse) pySpace
  refine ⟨t.reverse, ?_⟩
  have h2 := congrArg List.reverse ht
  simpa [rstripC] using h2.symm

theorem lstripC_rstripC_lstripC (l : Str) :
    lstripC (rstripC (lstripC l)) = rstripC (lstripC l) := by
  apply lstripC_eq_self_of_head
  intro c hc
  obtain ⟨t, ht⟩ := rstripC_prefix_decomp (lstripC l)
  have h2 : (lstripC l).head? = some c := by
    rw [ht]
    cases hE : rstripC (lstripC l) with
    | nil => rw [hE] at hc; simp at hc
    | cons a r =>
      rw [hE] at hc
      simp only [List.head?_cons, Option.some.injEq] at hc
      simp [hc]
  have h3 := List.head?_dropWhile_not pySpace l
  have hl : lstripC l = l.dropWhile pySpace := rfl
  rw [hl] at h2
  rw [h2] at h3
  exact h3

theorem rstripC_idem (l : Str) : rstripC (rstripC l) = rstripC l := by
  unfold rstripC
  rw [List.reverse_reverse, List.dropWhile_idempotent]

theorem stripC_idem (l : Str) : stripC (stripC l) = stripC l := by
  unfold stripC
  rw [lstripC_rstripC_lstripC, rstripC_idem]

theorem pySpace_comp_upChar : (pySpace ∘ upChar) = pySpace :=
  funext pySpace_upChar

theorem lstripC_upperC (l : Str) : lstripC (upperC l) = upperC (lstripC l) := by
  unfold lstripC upperC
  rw [List.dropWhile_map, pySpace_comp_upChar]

theorem rstripC_upperC (l : Str) : rstripC (upperC l) = upperC (rstripC l) := by
  unfold rstripC upperC
  rw [← List.map_reverse, List.dropWhile_map, pySpace_comp_upChar, List.map_reverse]

theorem stripC_upperC (l : Str) : stripC (upperC l) = upperC (stripC l) := by
  unfold stripC
  rw [lstripC_upperC, rstripC_upperC]

theorem rstripC_eq_self_of_getLast (l : Str) (c : Char) (h : l.getLast? = some c)
    (hc : pySpace c = false) : rstripC l = l := by
  have hrev : l.reverse.head? = some c := by
    rw [List.head?_reverse]
    exact h
  unfold rstripC
  cases hE : l.reverse with
  | nil => simp [hE] at hrev
  | cons a r =>
    rw [hE] at hrev
    simp only [List.head?_cons, Option.some.injEq] at hrev
    subst hrev
    rw [List.dropWhile_cons_of_neg (by simp [hc])]
    rw [← hE, List.reverse_reverse]

/-! ## Lemmas on symbol normalization -/

theorem upperC_append (l1 l2 : Str) : upperC (l1 ++ l2) = upperC l1 ++ upperC l2 :=
  List.map_append upChar l1 l2

/-- A string that is already stripped, uppercased and exchange-prefixed is
a fixed point of `normalize_symbol_for_bucket`. -/
theorem norm_fixed (t ex : Str) (h1 : stripC t = t) (h2 : upperC t = t)
    (h3 : (ex ++ ['_']).isPrefixOf t = true) : normalize_symbol_for_bucket t ex = t := by
  simp only [normalize_symbol_for_bucket, h1, h2, h3, if_true]

/-- Shape of every `normalize_symbol_for_bucket` result: either the
stripped-uppercased input (already prefixed), or the exchange prefix
followed by an uppercase string ending in `-EQ`. -/
theorem norm_cases (sym ex : Str) :
    (normalize_symbol_for_bucket sym ex = upperC (stripC sym)
      ∧ (ex ++ ['_']).isPrefixOf (upperC (stripC sym)) = true)
    ∨ (∃ w, normalize_symbol_for_bucket sym ex = ex ++ '_' :: (w ++ "-EQ".data)
        ∧ upperC (w ++ "-EQ".data) = w ++ "-EQ".data
        ∧ (ex ++ ['_']).isPrefixOf (upperC (stripC sym)) = false) := by
  by_cases h1 : (ex ++ ['_']).isPrefixOf (upperC (stripC sym)) = true
  · left
    exact ⟨by simp only [normalize_symbol_for_bucket, h1, if_true], h1⟩
  · right
    rw [Bool.not_eq_true] at h1
    by_cases h2 : ("-EQ".data).isSuffixOf (upperC (stripC sym)) = true
    · have h2' : "-EQ".data <:+ upperC (stripC sym) := by
        simpa using h2
      obtain ⟨w, hw⟩ := h2'
      refine ⟨w, ?_, ?_, h1⟩
      · simp only [normalize_symbol_for_bucket, h1, h2, if_true, Bool.false_eq_true, if_false, hw]
      · have hidem := upperC_idem (stripC sym)
        rw [← hw] at hidem
        exact hidem
    · rw [Bool.not_eq_true] at h2
      refine ⟨upperC (stripC sym), ?_, ?_, h1⟩
      · simp only [normalize_symbol_for_bucket, h1, h2, Bool.false_eq_true, if_false]
      · rw [upperC_append, upperC_idem]
        have : upperC ("-EQ".data) = "-EQ".data := by decide
        rw [this]

/-- The head of `ex ++ '_' :: w` is not whitespace when `ex` has no leading
whitespace. -/
theorem head_not_space_pfx (ex w : Str) (hl : lstripC ex = ex) :
    ∀ c, (ex ++ '_' :: w).head? = some c → pySpace c = false := by
  intro c hc
  cases ex with
  | nil =>
    simp only [List.nil_append, List.head?_cons, Option.some.injEq] at hc
    rw [← hc]
    decide
  | cons a t =>
    simp only [List.cons_append, List.head?_cons, Option.some.injEq] at hc
    rw [← hc]
    exact head_not_space_of_lstrip_self (a :: t) hl a rfl

/-- The list `ex ++ '_' :: (w ++ "-EQ")` ends in `Q`. -/
theorem getLast_eq_suffix (ex w : Str) :
    (ex ++ '_' :: (w ++ "-EQ".data)).getLast? = some 'Q' := by
  have hre : ex ++ '_' :: (w ++ "-EQ".data) = (ex ++ '_' :: w) ++ "-EQ".data := by
    simp
  rw [hre, List.getLast?_append]
  rfl

/-! ## Claims C5 and C6: symbol normalization -/

/-- C5, counterexample.  The claim states that every normalized symbol ends
in `-EQ`.  But an input already carrying the exchange prefix is returned
unchanged by `normalize_symbol_for_bucket` (src/main.py lines 27–28), with
no `-EQ` suffix check: `NSE_CIPLA` with exchange `NSE` normalizes to
`NSE_CIPLA`, which does not end in `-EQ`. -/
theorem prefixed_symbol_keeps_no_eq_suffix :
    normalize_symbol_for_bucket "NSE_CIPLA".data "NSE".data = "NSE_CIPLA".data
      ∧ ("-EQ".data).isSuffixOf (normalize_symbol_for_bucket "NSE_CIPLA".data "NSE".data) = false := by
  decide

/-- C5, amended.  The normalized symbol is the trimmed, uppercased input
with the exchange prefix and `-EQ` suffix rules, but the suffix rule only
runs when the prefix is absent: every normalized symbol starts with
`{EXCHANGE}_`; when the trimmed-uppercased input does not already carry
the prefix the result moreover ends in `-EQ`; when it does, it is returned
unchanged (so possibly without `-EQ`).  `CIPLA` with exchange `NSE`
normalizes to `NSE_CIPLA-EQ`. -/
theorem normalize_symbol_shape (sym ex : Str) :
    ((ex ++ ['_']).isPrefixOf (normalize_symbol_for_bucket sym ex) = true)
    ∧ ((ex ++ ['_']).isPrefixOf (upperC (stripC sym)) = false →
        ("-EQ".data).isSuffixOf (normalize_symbol_for_bucket sym ex) = true)
    ∧ ((ex ++ ['_']).isPrefixOf (upperC (stripC sym)) = true →
        normalize_symbol_for_bucket sym ex = upperC (stripC sym))
    ∧ normalize_symbol_for_bucket "CIPLA".data "NSE".data = "NSE_CIPLA-EQ".data := by
  refine ⟨?_, ?_, ?_, by decide⟩
  · rcases norm_cases sym ex with ⟨hn, h3⟩ | ⟨w, hn, _, _⟩
    · rw [hn]
      exact h3
    · rw [hn]
      simp only [ List.isPrefixOf_iff_prefix]
      exact ⟨w ++ "-EQ".data, by simp⟩
  · intro h1
    rcases norm_cases sym ex with ⟨_, h3⟩ | ⟨w, hn, _, _⟩
    · rw [h3] at h1
      exact absurd h1 (by simp)
    · rw [hn]
      simp only [List.isSuffixOf_iff_suffix]
      exact ⟨ex ++ '_' :: w, by simp⟩
  · intro h1
    rcases norm_cases sym ex with ⟨hn, _⟩ | ⟨_, _, _, h3⟩
    · exact hn
    · rw [h3] at h1
      exact absurd h1 (by simp)

/-- C5, witness for the amended theorem at `sym = "cipla "`, `ex = "NSE"`. -/
theorem normalize_symbol_shape_witness :
    ("-EQ".data).isSuffixOf (normalize_symbol_for_bucket "cipla ".data "NSE".data) = true
      ∧ normalize_symbol_for_bucket "CIPLA".data "NSE".data = "NSE_CIPLA-EQ".data := by
  have h := normalize_symbol_shape "cipla ".data "NSE".data
  exact ⟨h.2.1 (by decide), h.2.2.2⟩

/-- C6, counterexample.  The claim quantifies over every exchange, but with
the lowercase exchange `nse` normalization is not idempotent:
`normalize("abc") = "nse_ABC-EQ"`, whose re-normalization uppercases the
embedded prefix and prepends another one, giving `"nse_NSE_ABC-EQ"`. -/
theorem normalize_not_idempotent_lowercase_exchange :
    normalize_symbol_for_bucket (normalize_symbol_for_bucket "abc".data "nse".data) "nse".data
      ≠ normalize_symbol_for_bucket "abc".data "nse".data := by
  decide

/-- C6, amended.  Normalization is idempotent for every exchange that is
invariant under uppercasing and has no leading whitespace (in particular
the default `NSE`): for all symbols `sym`,
`normalize(normalize(sym)) = normalize(sym)`. -/
theorem normalize_idempotent_upper_exchange (sym ex : Str)
    (hu : upperC ex = ex) (hl : lstripC ex = ex) :
    normalize_symbol_for_bucket (normalize_symbol_for_bucket sym ex) ex
      = normalize_symbol_for_bucket sym ex := by
  rcases norm_cases sym ex with ⟨hn, h3⟩ | ⟨w, hn, hw, _⟩
  · rw [hn]
    exact norm_fixed _ ex (by rw [stripC_upperC, stripC_idem]) (upperC_idem _) h3
  · rw [hn]
    apply norm_fixed
    · unfold stripC
      rw [lstripC_eq_self_of_head _ (head_not_space_pfx ex _ hl)]
      exact rstripC_eq_self_of_getLast _ 'Q' (getLast_eq_suffix ex w) (by decide)
    · have hcons : ('_' : Char) :: (w ++ "-EQ".data) = ['_'] ++ (w ++ "-EQ".data) := rfl
      rw [hcons, upperC_append, upperC_append, hu, hw]
      rfl
    · simp only [ List.isPrefixOf_iff_prefix]
      exact ⟨w ++ "-EQ".data, by simp⟩

/-- C6, witness for the amended theorem at `sym = "cipla"`, `ex = "NSE"`. -/
theorem normalize_idempotent_upper_exchange_witness :
    normalize_symbol_for_bucket (normalize_symbol_for_bucket "cipla".data "NSE".data) "NSE".data
      = normalize_symbol_for_bucket "cipla".data "NSE".data :=
  normalize_idempotent_upper_exchange "cipla".data "NSE".data (by decide) (by decide)

/-! ## Lemmas on integer parsing and dates -/

theorem not_digit_of_space (c : Char) (h : pySpace c = true) : c.isDigit = false := by
  simp only [pySpace, Bool.or_eq_true, decide_eq_true_eq] at h
  rcases h with ((((h | h) | h) | h) | h) | h <;> subst h <;> decide

theorem not_space_of_digit (c : Char) (h : c.isDigit = true) : pySpace c = false := by
  cases hs : pySpace c with
  | false => rfl
  | true => rw [not_digit_of_space c hs] at h; exact absurd h (by simp)

theorem ne_underscore_of_digit (c : Char) (h : c.isDigit = true) : ¬(c = '_') := by
  intro he
  subst he
  exact absurd h (by decide)

theorem digitsRun_of_digits (l : Str) (h : ∀ c ∈ l, c.isDigit = true) :
    digitsRun false l = true := by
  induction l with
  | nil => rfl
  | cons c rest ih =>
    have hc := h c (by simp)
    rw [digitsRun, if_neg (ne_underscore_of_digit c hc), hc]
    simpa using ih fun x hx => h x (by simp [hx])

theorem digitsOk_of_digits (c : Char) (rest : Str) (h : ∀ x ∈ c :: rest, x.isDigit = true) :
    digitsOk (c :: rest) = true := by
  rw [digitsOk, h c (by simp)]
  simpa using digitsRun_of_digits rest fun x hx => h x (by simp [hx])

theorem stripC_of_digits (l : Str) (h : ∀ c ∈ l, c.isDigit = true) : stripC l = l := by
  have hns : ∀ c ∈ l, pySpace c = false := fun c hc => not_space_of_digit c (h c hc)
  unfold stripC
  have h1 : lstripC l = l := by
    apply lstripC_eq_self_of_head
    intro c hc
    exact hns c (List.mem_of_mem_head? hc)
  rw [h1]
  cases hE : l.getLast? with
  | none =>
    have : l = [] := by
      cases l with
      | nil => rfl
      | cons a r => simp [List.getLast?_eq_getLast] at hE
    simp [this, rstripC]
  | some a =>
    exact rstripC_eq_self_of_getLast l a hE (hns a (List.mem_of_getLast?_eq_some hE))

theorem filter_underscore_of_digits (l : Str) (h : ∀ c ∈ l, c.isDigit = true) :
    l.filter (fun x => !(x = '_')) = l := by
  rw [List.filter_eq_self]
  intro c hc
  simpa using ne_underscore_of_digit c (h c hc)

/-- Python `int` on a plain nonempty digit string returns its decimal value. -/
theorem pyInt_digits (l : Str) (hne : l ≠ []) (h : ∀ c ∈ l, c.isDigit = true) :
    pyInt l = some ((digitsNatVal l : Nat) : Int) := by
  obtain ⟨c, rest, rfl⟩ := List.exists_cons_of_ne_nil hne
  have hc := h c (by simp)
  have hplus : ¬(c = '+') := by intro he; subst he; exact absurd hc (by decide)
  have hminus : ¬(c = '-') := by intro he; subst he; exact absurd hc (by decide)
  rw [pyInt]
  rw [stripC_of_digits _ h]
  simp only [if_neg hplus, if_neg hminus, digitsOk_of_digits c rest h, if_true,
    filter_underscore_of_digits _ h]

/-- Taking `.date()` commutes with subtracting whole days. -/
theorem dateOf_sub_days (t k : Int) : dateOf (t - k * 86400) = dateOf t - k := by
  unfold dateOf
  rw [Int.fdiv_eq_ediv _ (by omega), Int.fdiv_eq_ediv _ (by omega)]
  have h : t - k * 86400 = t + (-k) * 86400 := by ring
  rw [h, Int.add_mul_ediv_right _ _ (by omega : (86400 : Int) ≠ 0)]
  ring

theorem dayRange_length (start now : Int) (h : dateOf start ≤ dateOf now) :
    (dayRange start now).length = (dateOf now - dateOf start).toNat + 1 := by
  simp only [dayRange, List.length_map, List.length_range]
  omega

theorem dayRange_head (start now : Int) (h : dateOf start ≤ dateOf now) :
    (dayRange start now).head? = some (dateOf start) := by
  have hk : ((dateOf now - dateOf start) + 1).toNat = (dateOf now - dateOf start).toNat + 1 := by
    omega
  simp only [dayRange, hk, List.range_succ_eq_map, List.head?_map, List.head?_cons,
    Option.map_some]
  simp

theorem dayRange_getLast (start now : Int) (h : dateOf start ≤ dateOf now) :
    (dayRange start now).getLast? = some (dateOf now) := by
  have hk : ((dateOf now - dateOf start) + 1).toNat = (dateOf now - dateOf start).toNat + 1 := by
    omega
  simp only [dayRange, hk, List.range_succ, List.map_append, List.map_cons, List.map_nil]
  rw [List.getLast?_concat]
  congr 1
  omega

/-! ## Claim C3: range resolution -/

/-- C3.  For every range token matching `^\d+[dmy]$` (digits `ds` followed
by unit `u`), parsing succeeds with `start = now - magnitude * unitDays(u)`
days (`d`→1, `m`→30, `y`→365), the end of the range is `now` itself
(`start ≤ now`), and the enumerated day sequence runs inclusively from
`start.date()` to `now.date()` with length
`(now.date() - start.date()).days + 1`. -/
theorem range_resolution_correct (ds : Str) (u : Char) (now : Int)
    (hne : ds ≠ []) (hdig : ∀ c ∈ ds, c.isDigit = true)
    (hu : u = 'd' ∨ u = 'm' ∨ u = 'y') :
    let start := now - ((digitsNatVal ds * unitDays u : Nat) : Int) * 86400
    parseRangeStart (ds ++ [u]) now = .ok start
    ∧ start ≤ now
    ∧ (dayRange start now).length = (dateOf now - dateOf start).toNat + 1
    ∧ (dayRange start now).head? = some (dateOf start)
    ∧ (dayRange start now).getLast? = some (dateOf now) := by
  intro start
  unfold start
  have hdate : dateOf (now - ((digitsNatVal ds * unitDays u : Nat) : Int) * 86400)
      = dateOf now - ((digitsNatVal ds * unitDays u : Nat) : Int) :=
    dateOf_sub_days now _
  have hle : dateOf (now - ((digitsNatVal ds * unitDays u : Nat) : Int) * 86400) ≤ dateOf now := by
    rw [hdate]
    have : (0 : Int) ≤ ((digitsNatVal ds * unitDays u : Nat) : Int) := Int.ofNat_nonneg _
    omega
  refine ⟨?_, ?_, dayRange_length _ _ hle, dayRange_head _ _ hle, dayRange_getLast _ _ hle⟩
  · simp only [parseRangeStart, List.getLast?_concat, List.dropLast_concat,
      pyInt_digits ds hne hdig]
    rcases hu with rfl | rfl | rfl
    · rw [if_pos (show lowChar 'd' = 'd' from rfl)]
      rw [show unitDays 'd' = 1 from rfl]
      exact congrArg Except.ok (by push_cast; ring)
    · rw [if_neg (show ¬lowChar 'm' = 'd' by decide),
        if_pos (show lowChar 'm' = 'm' from rfl)]
      rw [show unitDays 'm' = 30 from rfl]
      exact congrArg Except.ok (by push_cast; ring)
    · rw [if_neg (show ¬lowChar 'y' = 'd' by decide),
        if_neg (show ¬lowChar 'y' = 'm' by decide),
        if_pos (show lowChar 'y' = 'y' from rfl)]
      rw [show unitDays 'y' = 365 from rfl]
      exact congrArg Except.ok (by push_cast; ring)
  · omega

/-- C3, witness at token `2y` and `now = 1700000000`: `2 * 365 = 730` days
back, day sequence of length 731. -/
theorem range_resolution_correct_witness :
    parseRangeStart (['2'] ++ ['y']) 1700000000
      = .ok (1700000000 - ((digitsNatVal ['2'] * unitDays 'y' : Nat) : Int) * 86400)
    ∧ 1700000000 - ((digitsNatVal ['2'] * unitDays 'y' : Nat) : Int) * 86400 ≤ 1700000000
    ∧ (dayRange (1700000000 - ((digitsNatVal ['2'] * unitDays 'y' : Nat) : Int) * 86400)
        1700000000).length
        = (dateOf 1700000000
            - dateOf (1700000000 - ((digitsNatVal ['2'] * unitDays 'y' : Nat) : Int) * 86400)).toNat
          + 1
    ∧ (dayRange (1700000000 - ((digitsNatVal ['2'] * unitDays 'y' : Nat) : Int) * 86400)
        1700000000).head?
        = some (dateOf (1700000000 - ((digitsNatVal ['2'] * unitDays 'y' : Nat) : Int) * 86400))
    ∧ (dayRange (1700000000 - ((digitsNatVal ['2'] * unitDays 'y' : Nat) : Int) * 86400)
        1700000000).getLast?
        = some (dateOf 1700000000) :=
  range_resolution_correct ['2'] 'y' 1700000000 (by decide) (by decide) (by decide)

/-! ## Unfolding helpers for `get_price` -/

theorem get_price_split (st : Store α) (params ex : Str) (N now : Int) (parse : α → Option Int)
    (sym tf rng : Str) (hsplit : (splitComma params).map stripC = [sym, tf, rng]) :
    get_price st params ex N now parse = get_price_parts st [sym, tf, rng] ex N now parse := by
  unfold get_price
  rw [hsplit]

theorem get_price_parts_err (st : Store α) (sym tf rng ex : Str) (N now : Int)
    (parse : α → Option Int) (e : Err) (hparse : parseRangeStart rng now = .error e) :
    get_price_parts st [sym, tf, rng] ex N now parse = errOut α e := by
  simp only [get_price_parts, hparse]

theorem get_price_parts_ok (st : Store α) (sym tf rng ex : Str) (N now : Int)
    (parse : α → Option Int) (start : Int) (hparse : parseRangeStart rng now = .ok start) :
    get_price_parts st [sym, tf, rng] ex N now parse
      = finishGP parse sym (normalize_symbol_for_bucket sym ex) tf rng start now
          (processDays st N tf ex (normalize_symbol_for_bucket sym ex) (dayRange start now)
            (initSt α)) := by
  simp only [get_price_parts, hparse]

/-! ## Claims C4 and C10: malformed and empty range tokens -/

/-- C4, counterexample.  The claim asserts that every range token whose
prefix is not a valid non-negative integer fails with `MalformedRange`.
But Python `int` also accepts signed prefixes: for the token `-5d`, whose
prefix `-5` is not a non-negative integer (not even a digit string), range
parsing succeeds with a *negative* day count, the enumerated day range is
empty, and the query fails with `NoDataFound` instead of
`MalformedRange`. -/
theorem negative_range_not_malformed :
    pyInt "-5".data = some (-5)
    ∧ (∃ c ∈ "-5".data, c.isDigit = false)
    ∧ parseRangeStart "-5d".data 1700000000 = .ok (1700000000 + 5 * 86400)
    ∧ (get_price emptyStore "CIPLA,15m,-5d".data "NSE".data 50 1700000000 idParse).result
        = .error .noDataFound
    ∧ (get_price emptyStore "CIPLA,15m,-5d".data "NSE".data 50 1700000000 idParse).result
        ≠ .error .malformedRange := by
  decide

/-- C4, amended.  For every range token whose prefix before the final unit
character is not a valid Python integer literal (in particular `abcd`,
whose prefix `abc` is not numeric), range parsing fails with
`MalformedRange` (a 400 error) before any object-store access occurs: no
listing and no object fetch is performed.  (A signed prefix such as `-5`
is accepted by `int` and does not take this path.) -/
theorem malformed_range_rejected_before_store {α : Type} (st : Store α) (params ex : Str)
    (N now : Int) (parse : α → Option Int) (sym tf rng : Str)
    (hsplit : (splitComma params).map stripC = [sym, tf, rng])
    (hne : rng ≠ []) (hbad : pyInt rng.dropLast = none) :
    (get_price st params ex N now parse).result = .error .malformedRange
    ∧ (get_price st params ex N now parse).listed = []
    ∧ (get_price st params ex N now parse).fetched = [] := by
  have hparse : parseRangeStart rng now = .error .malformedRange := by
    obtain ⟨L, b, hLb⟩ := (List.eq_nil_or_concat rng).resolve_left hne
    rw [List.concat_eq_append] at hLb
    subst hLb
    rw [List.dropLast_concat] at hbad
    simp only [parseRangeStart, List.getLast?_concat, List.dropLast_concat, hbad]
  rw [get_price_split st params ex N now parse sym tf rng hsplit,
    get_price_parts_err st sym tf rng ex N now parse _ hparse]
  exact ⟨rfl, rfl, rfl⟩

/-- C4, witness for the amended theorem at `params = "CIPLA,15m,abcd"`. -/
theorem malformed_range_rejected_before_store_witness :
    (get_price emptyStore "CIPLA,15m,abcd".data "NSE".data 50 1700000000 idParse).result
      = .error .malformedRange
    ∧ (get_price emptyStore "CIPLA,15m,abcd".data "NSE".data 50 1700000000 idParse).listed = []
    ∧ (get_price emptyStore "CIPLA,15m,abcd".data "NSE".data 50 1700000000 idParse).fetched
        = [] :=
  malformed_range_rejected_before_store emptyStore "CIPLA,15m,abcd".data "NSE".data 50 1700000000
    idParse "CIPLA".data "15m".data "abcd".data (by decide) (by decide) (by decide)

/-- C10.  A request whose third comma-separated token is empty (such as
`CIPLA,15m,`) passes the three-part token-count check, but `rng[-1]` on
the empty range token raises an unhandled `IndexError`
(src/main.py line 51): the handler reports neither `MalformedRange` nor
`UnknownRangeUnit`.  Conversely, on every nonempty range token the parser
never raises `IndexError`, so range parsing is total exactly on nonempty
tokens. -/
theorem empty_range_token_index_error {α : Type} (st : Store α) (ex : Str) (N now : Int)
    (parse : α → Option Int) :
    (get_price st "CIPLA,15m,".data ex N now parse).result = .error .indexError
    ∧ (get_price st "CIPLA,15m,".data ex N now parse).result ≠ .error .malformedRange
    ∧ (get_price st "CIPLA,15m,".data ex N now parse).result ≠ .error .unknownUnit
    ∧ ∀ (rng : Str) (now2 : Int), rng ≠ [] →
        parseRangeStart rng now2 ≠ .error .indexError := by
  have h1 : get_price st "CIPLA,15m,".data ex N now parse = errOut α .indexError := by
    rw [get_price_split st _ ex N now parse "CIPLA".data "15m".data [] (by decide)]
    exact get_price_parts_err st _ _ _ ex N now parse _ rfl
  refine ⟨by rw [h1]; rfl, by rw [h1]; simp [errOut], by rw [h1]; simp [errOut], ?_⟩
  intro rng now2 hne hcontra
  obtain ⟨L, b, hLb⟩ := (List.eq_nil_or_concat rng).resolve_left hne
  rw [List.concat_eq_append] at hLb
  subst hLb
  simp only [parseRangeStart, List.getLast?_concat] at hcontra
  cases hp : pyInt (L ++ [b]).dropLast with
  | none =>
    simp only [hp] at hcontra
    simp at hcontra
  | some v =>
    simp only [hp] at hcontra
    by_cases h1 : lowChar b = 'd'
    · rw [if_pos h1] at hcontra
      exact absurd hcontra (by simp)
    · rw [if_neg h1] at hcontra
      by_cases h2 : lowChar b = 'm'
      · rw [if_pos h2] at hcontra
        exact absurd hcontra (by simp)
      · rw [if_neg h2] at hcontra
        by_cases h3 : lowChar b = 'y'
        · rw [if_pos h3] at hcontra
          exact absurd hcontra (by simp)
        · rw [if_neg h3] at hcontra
          exact absurd hcontra (by simp)

/-- C10, witness: the empty-token request raises `IndexError`, while the
nonempty token `1d` does not. -/
theorem empty_range_token_index_error_witness :
    (get_price emptyStore "CIPLA,15m,".data "NSE".data 50 1700000000 idParse).result
      = .error .indexError
    ∧ parseRangeStart "1d".data 0 ≠ .error .indexError := by
  have h := empty_range_token_index_error emptyStore "NSE".data 50 1700000000 idParse
  exact ⟨h.1, h.2.2.2 "1d".data 0 (by decide)⟩

/-! ## Lemmas on the retrieval loop: innermost object loop -/

@[simp] theorem stFetchOk_filesRead (s : LoopSt α) (k : Str) (t : Table α) :
    (stFetchOk s k t).filesRead = s.filesRead + 1 := rfl

@[simp] theorem stFetchOk_listed (s : LoopSt α) (k : Str) (t : Table α) :
    (stFetchOk s k t).listed = s.listed := rfl

@[simp] theorem stFetchOk_fetched (s : LoopSt α) (k : Str) (t : Table α) :
    (stFetchOk s k t).fetched = s.fetched ++ [(k, s.filesRead)] := rfl

@[simp] theorem stFetchOk_tables (s : LoopSt α) (k : Str) (t : Table α) :
    (stFetchOk s k t).tables = s.tables ++ [t] := rfl

@[simp] theorem stFetchOk_skipped (s : LoopSt α) (k : Str) (t : Table α) :
    (stFetchOk s k t).skipped = s.skipped := rfl

@[simp] theorem stFetchBad_filesRead (s : LoopSt α) (k : Str) :
    (stFetchBad s k).filesRead = s.filesRead := rfl

@[simp] theorem stFetchBad_listed (s : LoopSt α) (k : Str) :
    (stFetchBad s k).listed = s.listed := rfl

@[simp] theorem stFetchBad_fetched (s : LoopSt α) (k : Str) :
    (stFetchBad s k).fetched = s.fetched ++ [(k, s.filesRead)] := rfl

@[simp] theorem stFetchBad_tables (s : LoopSt α) (k : Str) :
    (stFetchBad s k).tables = s.tables := rfl

@[simp] theorem stFetchBad_skipped (s : LoopSt α) (k : Str) :
    (stFetchBad s k).skipped = s.skipped ++ [k] := rfl

theorem page_mono (dec : Str → Option (Table α)) (N : Int) (keys : List Str) (s : LoopSt α) :
    s.filesRead ≤ (processPage dec N keys s).filesRead := by
  induction keys generalizing s with
  | nil => simp [processPage]
  | cons k rest ih =>
    rw [processPage]
    by_cases hpq : isParquetKey k = false
    · rw [if_pos hpq]
      exact ih s
    · rw [if_neg hpq]
      by_cases hb : N ≤ (s.filesRead : Int)
      · rw [if_pos hb]
      · rw [if_neg hb]
        cases hd : dec k with
        | some t =>
          dsimp only
          have h2 := ih (stFetchOk s k t)
          simp only [stFetchOk_filesRead] at h2
          omega
        | none =>
          dsimp only
          have h2 := ih (stFetchBad s k)
          simp only [stFetchBad_filesRead] at h2
          omega

theorem page_bound (dec : Str → Option (Table α)) (N : Int) (keys : List Str) (s : LoopSt α)
    (h : (s.filesRead : Int) ≤ N) : ((processPage dec N keys s).filesRead : Int) ≤ N := by
  induction keys generalizing s with
  | nil => simpa [processPage] using h
  | cons k rest ih =>
    rw [processPage]
    by_cases hpq : isParquetKey k = false
    · rw [if_pos hpq]
      exact ih s h
    · rw [if_neg hpq]
      by_cases hb : N ≤ (s.filesRead : Int)
      · rw [if_pos hb]
        exact h
      · rw [if_neg hb]
        cases hd : dec k with
        | some t =>
          dsimp only
          refine ih (stFetchOk s k t) ?_
          simp only [stFetchOk_filesRead]
          push_cast
          omega
        | none =>
          dsimp only
          refine ih (stFetchBad s k) ?_
          simpa only [stFetchBad_filesRead] using h

theorem page_listed (dec : Str → Option (Table α)) (N : Int) (keys : List Str) (s : LoopSt α) :
    (processPage dec N keys s).listed = s.listed := by
  induction keys generalizing s with
  | nil => simp [processPage]
  | cons k rest ih =>
    rw [processPage]
    by_cases hpq : isParquetKey k = false
    · rw [if_pos hpq]
      exact ih s
    · rw [if_neg hpq]
      by_cases hb : N ≤ (s.filesRead : Int)
      · rw [if_pos hb]
      · rw [if_neg hb]
        cases hd : dec k with
        | some t =>
          dsimp only
          rw [ih (stFetchOk s k t), stFetchOk_listed]
        | none =>
          dsimp only
          rw [ih (stFetchBad s k), stFetchBad_listed]

theorem page_fetch_below (dec : Str → Option (Table α)) (N : Int) (keys : List Str)
    (s : LoopSt α) :
    ∀ x ∈ (processPage dec N keys s).fetched, x ∈ s.fetched ∨ (x.2 : Int) < N := by
  induction keys generalizing s with
  | nil =>
    intro x hx
    simp only [processPage] at hx
    exact Or.inl hx
  | cons k rest ih =>
    rw [processPage]
    by_cases hpq : isParquetKey k = false
    · rw [if_pos hpq]
      exact ih s
    · rw [if_neg hpq]
      by_cases hb : N ≤ (s.filesRead : Int)
      · rw [if_pos hb]
        exact fun x hx => Or.inl hx
      · rw [if_neg hb]
        cases hd : dec k with
        | some t =>
          dsimp only
          intro x hx
          rcases ih (stFetchOk s k t) x hx with hmem | hlt
          · rw [stFetchOk_fetched] at hmem
            simp only [List.mem_append, List.mem_singleton] at hmem
            rcases hmem with hmem | rfl
            · exact Or.inl hmem
            · right
              omega
          · exact Or.inr hlt
        | none =>
          dsimp only
          intro x hx
          rcases ih (stFetchBad s k) x hx with hmem | hlt
          · rw [stFetchBad_fetched] at hmem
            simp only [List.mem_append, List.mem_singleton] at hmem
            rcases hmem with hmem | rfl
            · exact Or.inl hmem
            · right
              omega
          · exact Or.inr hlt

theorem page_acct (dec : Str → Option (Table α)) (N : Int) (keys : List Str) (s : LoopSt α) :
    (processPage dec N keys s).tables.length + s.filesRead
        = s.tables.length + (processPage dec N keys s).filesRead
    ∧ (processPage dec N keys s).fetched.length + s.filesRead + s.skipped.length
        = s.fetched.length + (processPage dec N keys s).filesRead
            + (processPage dec N keys s).skipped.length := by
  induction keys generalizing s with
  | nil => simp [processPage]
  | cons k rest ih =>
    rw [processPage]
    by_cases hpq : isParquetKey k = false
    · rw [if_pos hpq]
      exact ih s
    · rw [if_neg hpq]
      by_cases hb : N ≤ (s.filesRead : Int)
      · rw [if_pos hb]
        exact ⟨rfl, rfl⟩
      · rw [if_neg hb]
        cases hd : dec k with
        | some t =>
          dsimp only
          have h2 := ih (stFetchOk s k t)
          simp only [stFetchOk_filesRead, stFetchOk_tables, stFetchOk_fetched, stFetchOk_skipped,
            List.length_append, List.length_singleton] at h2
          omega
        | none =>
          dsimp only
          have h2 := ih (stFetchBad s k)
          simp only [stFetchBad_filesRead, stFetchBad_tables, stFetchBad_fetched,
            stFetchBad_skipped, List.length_append, List.length_singleton] at h2
          omega

/-! ## Lemmas on the retrieval loop: page loop -/

theorem pages_mono (dec : Str → Option (Table α)) (N : Int) (ps : List (List Str))
    (s : LoopSt α) : s.filesRead ≤ (processPages dec N ps s).filesRead := by
  induction ps generalizing s with
  | nil => simp [processPages]
  | cons p rest ih =>
    rw [processPages]
    by_cases hb : N ≤ ((processPage dec N p s).filesRead : Int)
    · rw [if_pos hb]
      exact page_mono dec N p s
    · rw [if_neg hb]
      exact le_trans (page_mono dec N p s) (ih _)

theorem pages_bound (dec : Str → Option (Table α)) (N : Int) (ps : List (List Str))
    (s : LoopSt α) (h : (s.filesRead : Int) ≤ N) :
    ((processPages dec N ps s).filesRead : Int) ≤ N := by
  induction ps generalizing s with
  | nil => simpa [processPages] using h
  | cons p rest ih =>
    rw [processPages]
    by_cases hb : N ≤ ((processPage dec N p s).filesRead : Int)
    · rw [if_pos hb]
      exact page_bound dec N p s h
    · rw [if_neg hb]
      exact ih _ (page_bound dec N p s h)

theorem pages_listed (dec : Str → Option (Table α)) (N : Int) (ps : List (List Str))
    (s : LoopSt α) : (processPages dec N ps s).listed = s.listed := by
  induction ps generalizing s with
  | nil => simp [processPages]
  | cons p rest ih =>
    rw [processPages]
    by_cases hb : N ≤ ((processPage dec N p s).filesRead : Int)
    · rw [if_pos hb]
      exact page_listed dec N p s
    · rw [if_neg hb]
      rw [ih _, page_listed dec N p s]

theorem pages_fetch_below (dec : Str → Option (Table α)) (N : Int) (ps : List (List Str))
    (s : LoopSt α) :
    ∀ x ∈ (processPages dec N ps s).fetched, x ∈ s.fetched ∨ (x.2 : Int) < N := by
  induction ps generalizing s with
  | nil =>
    intro x hx
    simp only [processPages] at hx
    exact Or.inl hx
  | cons p rest ih =>
    rw [processPages]
    by_cases hb : N ≤ ((processPage dec N p s).filesRead : Int)
    · rw [if_pos hb]
      exact page_fetch_below dec N p s
    · rw [if_neg hb]
      intro x hx
      rcases ih _ x hx with hmem | hlt
      · exact page_fetch_below dec N p s x hmem
      · exact Or.inr hlt

theorem pages_acct (dec : Str → Option (Table α)) (N : Int) (ps : List (List Str))
    (s : LoopSt α) :
    (processPages dec N ps s).tables.length + s.filesRead
        = s.tables.length + (processPages dec N ps s).filesRead
    ∧ (processPages dec N ps s).fetched.length + s.filesRead + s.skipped.length
        = s.fetched.length + (processPages dec N ps s).filesRead
            + (processPages dec N ps s).skipped.length := by
  induction ps generalizing s with
  | nil => simp [processPages]
  | cons p rest ih =>
    rw [processPages]
    by_cases hb : N ≤ ((processPage dec N p s).filesRead : Int)
    · rw [if_pos hb]
      exact page_acct dec N p s
    · rw [if_neg hb]
      have h1 := page_acct dec N p s
      have h2 := ih (processPage dec N p s)
      omega

/-! ## Lemmas on the retrieval loop: prefix-variant loop -/

theorem pfxs_mono (st : Store α) (N : Int) (ps : List Str) (s : LoopSt α) :
    s.filesRead ≤ (processPfxs st N ps s).filesRead := by
  induction ps generalizing s with
  | nil => simp [processPfxs]
  | cons p rest ih =>
    rw [processPfxs]
    by_cases hb : N ≤ ((processPages st.decodeOf N (st.pages p)
        { s with listed := s.listed ++ [(p, s.filesRead)] }).filesRead : Int)
    · rw [if_pos hb]
      exact pages_mono st.decodeOf N (st.pages p) { s with listed := s.listed ++ [(p, s.filesRead)] }
    · rw [if_neg hb]
      exact le_trans (pages_mono st.decodeOf N (st.pages p) { s with listed := s.listed ++ [(p, s.filesRead)] })
        (ih (processPages st.decodeOf N (st.pages p) { s with listed := s.listed ++ [(p, s.filesRead)] }))

theorem pfxs_bound (st : Store α) (N : Int) (ps : List Str) (s : LoopSt α)
    (h : (s.filesRead : Int) ≤ N) : ((processPfxs st N ps s).filesRead : Int) ≤ N := by
  induction ps generalizing s with
  | nil => simpa [processPfxs] using h
  | cons p rest ih =>
    rw [processPfxs]
    by_cases hb : N ≤ ((processPages st.decodeOf N (st.pages p)
        { s with listed := s.listed ++ [(p, s.filesRead)] }).filesRead : Int)
    · rw [if_pos hb]
      exact pages_bound st.decodeOf N (st.pages p) { s with listed := s.listed ++ [(p, s.filesRead)] } h
    · rw [if_neg hb]
      exact ih (processPages st.decodeOf N (st.pages p) { s with listed := s.listed ++ [(p, s.filesRead)] })
        (pages_bound st.decodeOf N (st.pages p) { s with listed := s.listed ++ [(p, s.filesRead)] } h)

theorem pfxs_fetch_below (st : Store α) (N : Int) (ps : List Str) (s : LoopSt α) :
    ∀ x ∈ (processPfxs st N ps s).fetched, x ∈ s.fetched ∨ (x.2 : Int) < N := by
  induction ps generalizing s with
  | nil =>
    intro x hx
    simp only [processPfxs] at hx
    exact Or.inl hx
  | cons p rest ih =>
    rw [processPfxs]
    by_cases hb : N ≤ ((processPages st.decodeOf N (st.pages p)
        { s with listed := s.listed ++ [(p, s.filesRead)] }).filesRead : Int)
    · rw [if_pos hb]
      exact pages_fetch_below st.decodeOf N (st.pages p) { s with listed := s.listed ++ [(p, s.filesRead)] }
    · rw [if_neg hb]
      intro x hx
      rcases ih (processPages st.decodeOf N (st.pages p) { s with listed := s.listed ++ [(p, s.filesRead)] }) x hx with hmem | hlt
      · exact pages_fetch_below st.decodeOf N (st.pages p) { s with listed := s.listed ++ [(p, s.filesRead)] } x hmem
      · exact Or.inr hlt

theorem pfxs_acct (st : Store α) (N : Int) (ps : List Str) (s : LoopSt α) :
    (processPfxs st N ps s).tables.length + s.filesRead
        = s.tables.length + (processPfxs st N ps s).filesRead
    ∧ (processPfxs st N ps s).fetched.length + s.filesRead + s.skipped.length
        = s.fetched.length + (processPfxs st N ps s).filesRead
            + (processPfxs st N ps s).skipped.length := by
  induction ps generalizing s with
  | nil => simp [processPfxs]
  | cons p rest ih =>
    rw [processPfxs]
    by_cases hb : N ≤ ((processPages st.decodeOf N (st.pages p)
        { s with listed := s.listed ++ [(p, s.filesRead)] }).filesRead : Int)
    · rw [if_pos hb]
      exact pages_acct st.decodeOf N (st.pages p) _
    · rw [if_neg hb]
      have h1 := pages_acct st.decodeOf N (st.pages p)
        { s with listed := s.listed ++ [(p, s.filesRead)] }
      have h2 := ih (processPages st.decodeOf N (st.pages p)
        { s with listed := s.listed ++ [(p, s.filesRead)] })
      dsimp only at h1
      omega

theorem pfxs_listed_take (st : Store α) (N : Int) (ps : List Str) (s : LoopSt α) :
    ∃ kk, (processPfxs st N ps s).listed.map Prod.fst
      = s.listed.map Prod.fst ++ ps.take kk := by
  induction ps generalizing s with
  | nil => exact ⟨0, by simp [processPfxs]⟩
  | cons p rest ih =>
    rw [processPfxs]
    by_cases hb : N ≤ ((processPages st.decodeOf N (st.pages p)
        { s with listed := s.listed ++ [(p, s.filesRead)] }).filesRead : Int)
    · rw [if_pos hb]
      refine ⟨1, ?_⟩
      rw [pages_listed]
      simp
    · rw [if_neg hb]
      obtain ⟨kk, hkk⟩ := ih (processPages st.decodeOf N (st.pages p)
        { s with listed := s.listed ++ [(p, s.filesRead)] })
      refine ⟨kk + 1, ?_⟩
      rw [hkk, pages_listed]
      simp

theorem pfxs_listed_below (st : Store α) (N : Int) (ps : List Str) (s : LoopSt α)
    (hs : (s.filesRead : Int) < N) :
    ∀ x ∈ (processPfxs st N ps s).listed, x ∈ s.listed ∨ (x.2 : Int) < N := by
  induction ps generalizing s with
  | nil =>
    intro x hx
    simp only [processPfxs] at hx
    exact Or.inl hx
  | cons p rest ih =>
    rw [processPfxs]
    by_cases hb : N ≤ ((processPages st.decodeOf N (st.pages p)
        { s with listed := s.listed ++ [(p, s.filesRead)] }).filesRead : Int)
    · rw [if_pos hb]
      intro x hx
      rw [pages_listed] at hx
      dsimp only at hx
      simp only [List.mem_append, List.mem_singleton] at hx
      rcases hx with hx | rfl
      · exact Or.inl hx
      · exact Or.inr hs
    · rw [if_neg hb]
      intro x hx
      rw [Int.not_le] at hb
      rcases ih _ hb x hx with hmem | hlt
      · rw [pages_listed] at hmem
        dsimp only at hmem
        simp only [List.mem_append, List.mem_singleton] at hmem
        rcases hmem with hmem | rfl
        · exact Or.inl hmem
        · exact Or.inr hs
      · exact Or.inr hlt

theorem pfxs_listed_full (st : Store α) (N : Int) (ps : List Str) (s : LoopSt α)
    (hfin : ((processPfxs st N ps s).filesRead : Int) < N) :
    (processPfxs st N ps s).listed.map Prod.fst = s.listed.map Prod.fst ++ ps := by
  induction ps generalizing s with
  | nil => simp [processPfxs]
  | cons p rest ih =>
    rw [processPfxs] at hfin ⊢
    by_cases hb : N ≤ ((processPages st.decodeOf N (st.pages p)
        { s with listed := s.listed ++ [(p, s.filesRead)] }).filesRead : Int)
    · rw [if_pos hb] at hfin
      omega
    · rw [if_neg hb] at hfin ⊢
      rw [ih _ hfin, pages_listed]
      simp

/-! ## Lemmas on the retrieval loop: day loop -/

theorem days_mono (st : Store α) (N : Int) (tf ex sym : Str) (days : List Int) (s : LoopSt α) :
    s.filesRead ≤ (processDays st N tf ex sym days s).filesRead := by
  induction days generalizing s with
  | nil => simp [processDays]
  | cons d rest ih =>
    rw [processDays]
    by_cases hb : N ≤ ((processPfxs st N (dayPfxs tf ex sym d) s).filesRead : Int)
    · rw [if_pos hb]
      exact pfxs_mono st N (dayPfxs tf ex sym d) s
    · rw [if_neg hb]
      exact le_trans (pfxs_mono st N (dayPfxs tf ex sym d) s)
        (ih (processPfxs st N (dayPfxs tf ex sym d) s))

theorem days_bound (st : Store α) (N : Int) (tf ex sym : Str) (days : List Int) (s : LoopSt α)
    (h : (s.filesRead : Int) ≤ N) :
    ((processDays st N tf ex sym days s).filesRead : Int) ≤ N := by
  induction days generalizing s with
  | nil => simpa [processDays] using h
  | cons d rest ih =>
    rw [processDays]
    by_cases hb : N ≤ ((processPfxs st N (dayPfxs tf ex sym d) s).filesRead : Int)
    · rw [if_pos hb]
      exact pfxs_bound st N (dayPfxs tf ex sym d) s h
    · rw [if_neg hb]
      exact ih (processPfxs st N (dayPfxs tf ex sym d) s)
        (pfxs_bound st N (dayPfxs tf ex sym d) s h)

theorem days_fetch_below (st : Store α) (N : Int) (tf ex sym : Str) (days : List Int)
    (s : LoopSt α) :
    ∀ x ∈ (processDays st N tf ex sym days s).fetched, x ∈ s.fetched ∨ (x.2 : Int) < N := by
  induction days generalizing s with
  | nil =>
    intro x hx
    simp only [processDays] at hx
    exact Or.inl hx
  | cons d rest ih =>
    rw [processDays]
    by_cases hb : N ≤ ((processPfxs st N (dayPfxs tf ex sym d) s).filesRead : Int)
    · rw [if_pos hb]
      exact pfxs_fetch_below st N (dayPfxs tf ex sym d) s
    · rw [if_neg hb]
      intro x hx
      rcases ih (processPfxs st N (dayPfxs tf ex sym d) s) x hx with hmem | hlt
      · exact pfxs_fetch_below st N (dayPfxs tf ex sym d) s x hmem
      · exact Or.inr hlt

theorem days_acct (st : Store α) (N : Int) (tf ex sym : Str) (days : List Int) (s : LoopSt α) :
    (processDays st N tf ex sym days s).tables.length + s.filesRead
        = s.tables.length + (processDays st N tf ex sym days s).filesRead
    ∧ (processDays st N tf ex sym days s).fetched.length + s.filesRead + s.skipped.length
        = s.fetched.length + (processDays st N tf ex sym days s).filesRead
            + (processDays st N tf ex sym days s).skipped.length := by
  induction days generalizing s with
  | nil => simp [processDays]
  | cons d rest ih =>
    rw [processDays]
    by_cases hb : N ≤ ((processPfxs st N (dayPfxs tf ex sym d) s).filesRead : Int)
    · rw [if_pos hb]
      exact pfxs_acct st N (dayPfxs tf ex sym d) s
    · rw [if_neg hb]
      have h1 := pfxs_acct st N (dayPfxs tf ex sym d) s
      have h2 := ih (processPfxs st N (dayPfxs tf ex sym d) s)
      omega

theorem days_listed_below (st : Store α) (N : Int) (tf ex sym : Str) (days : List Int)
    (s : LoopSt α) (hs : (s.filesRead : Int) < N) :
    ∀ x ∈ (processDays st N tf ex sym days s).listed, x ∈ s.listed ∨ (x.2 : Int) < N := by
  induction days generalizing s with
  | nil =>
    intro x hx
    simp only [processDays] at hx
    exact Or.inl hx
  | cons d rest ih =>
    rw [processDays]
    by_cases hb : N ≤ ((processPfxs st N (dayPfxs tf ex sym d) s).filesRead : Int)
    · rw [if_pos hb]
      exact pfxs_listed_below st N (dayPfxs tf ex sym d) s hs
    · rw [if_neg hb]
      intro x hx
      rw [Int.not_le] at hb
      rcases ih (processPfxs st N (dayPfxs tf ex sym d) s) hb x hx with hmem | hlt
      · exact pfxs_listed_below st N (dayPfxs tf ex sym d) s hs x hmem
      · exact Or.inr hlt

theorem days_listed_pfx (st : Store α) (N : Int) (tf ex sym : Str) (days : List Int)
    (s : LoopSt α) :
    ∃ t, (processDays st N tf ex sym days s).listed.map Prod.fst
          = s.listed.map Prod.fst ++ t
        ∧ t <+: ((days.map (dayPfxs tf ex sym)).flatten) := by
  induction days generalizing s with
  | nil => exact ⟨[], by simp [processDays]⟩
  | cons d rest ih =>
    rw [processDays]
    by_cases hb : N ≤ ((processPfxs st N (dayPfxs tf ex sym d) s).filesRead : Int)
    · rw [if_pos hb]
      obtain ⟨kk, hkk⟩ := pfxs_listed_take st N (dayPfxs tf ex sym d) s
      refine ⟨(dayPfxs tf ex sym d).take kk, hkk, ?_⟩
      simp only [List.map_cons, List.flatten_cons]
      exact ( List.take_prefix kk (dayPfxs tf ex sym d)).trans
        (List.prefix_append (dayPfxs tf ex sym d) ((rest.map (dayPfxs tf ex sym)).flatten))
    · rw [if_neg hb]
      rw [Int.not_le] at hb
      obtain ⟨t, ht, hpre⟩ := ih (processPfxs st N (dayPfxs tf ex sym d) s)
      obtain ⟨z, hz⟩ := hpre
      refine ⟨dayPfxs tf ex sym d ++ t, ?_, ?_⟩
      · rw [ht, pfxs_listed_full st N (dayPfxs tf ex sym d) s hb]
        simp
      · refine ⟨z, ?_⟩
        simp only [List.map_cons, List.flatten_cons]
        rw [List.append_assoc, hz]

theorem days_listed_full (st : Store α) (N : Int) (tf ex sym : Str) (days : List Int)
    (s : LoopSt α) (hfin : ((processDays st N tf ex sym days s).filesRead : Int) < N) :
    (processDays st N tf ex sym days s).listed.map Prod.fst
      = s.listed.map Prod.fst ++ ((days.map (dayPfxs tf ex sym)).flatten) := by
  induction days generalizing s with
  | nil => simp [processDays]
  | cons d rest ih =>
    rw [processDays] at hfin ⊢
    by_cases hb : N ≤ ((processPfxs st N (dayPfxs tf ex sym d) s).filesRead : Int)
    · rw [if_pos hb] at hfin
      omega
    · rw [if_neg hb] at hfin ⊢
      rw [Int.not_le] at hb
      rw [ih (processPfxs st N (dayPfxs tf ex sym d) s) hfin,
        pfxs_listed_full st N (dayPfxs tf ex sym d) s hb]
      simp [List.append_assoc]

/-! ## Endpoint-level helper lemmas -/

theorem finishGP_fields (parse : α → Option Int) (sym symp tf rng : Str) (start now : Int)
    (fin : LoopSt α) :
    (finishGP parse sym symp tf rng start now fin).listed = fin.listed
    ∧ (finishGP parse sym symp tf rng start now fin).fetched = fin.fetched
    ∧ (finishGP parse sym symp tf rng start now fin).skipped = fin.skipped
    ∧ (finishGP parse sym symp tf rng start now fin).tables = fin.tables
    ∧ (finishGP parse sym symp tf rng start now fin).filesRead = fin.filesRead := by
  unfold finishGP
  split
  · exact ⟨rfl, rfl, rfl, rfl, rfl⟩
  · cases hF : filterTable (concatTables fin.tables) with
    | none =>
      simp only [hF]
      exact ⟨trivial, trivial, trivial, trivial, trivial⟩
    | some filtered =>
      simp only [hF]
      exact ⟨trivial, trivial, trivial, trivial, trivial⟩

theorem parseRangeStart_error_shape (rng : Str) (now : Int) (e : Err)
    (h : parseRangeStart rng now = .error e) :
    e = .malformedRange ∨ e = .unknownUnit ∨ e = .indexError := by
  unfold parseRangeStart at h
  cases hg : rng.getLast? with
  | none =>
    rw [hg] at h
    simp only [Except.error.injEq] at h
    exact Or.inr (Or.inr h.symm)
  | some u0 =>
    rw [hg] at h
    dsimp only at h
    cases hp : pyInt rng.dropLast with
    | none =>
      simp only [hp] at h
      simp only [Except.error.injEq] at h
      exact Or.inl h.symm
    | some v =>
      simp only [hp] at h
      by_cases h1 : lowChar u0 = 'd'
      · rw [if_pos h1] at h
        exact absurd h (by simp)
      · rw [if_neg h1] at h
        by_cases h2 : lowChar u0 = 'm'
        · rw [if_pos h2] at h
          exact absurd h (by simp)
        · rw [if_neg h2] at h
          by_cases h3 : lowChar u0 = 'y'
          · rw [if_pos h3] at h
            exact absurd h (by simp)
          · rw [if_neg h3] at h
            simp only [Except.error.injEq] at h
            exact Or.inr (Or.inl h.symm)

/-- Every `get_price` outcome is either an early error (one of the four
parse-stage errors, with no store interaction) or the finished listing
path. -/
theorem get_price_rep (st : Store α) (params ex : Str) (N now : Int)
    (parse : α → Option Int) :
    (∃ e, (e = Err.malformedQuery ∨ e = Err.malformedRange ∨ e = Err.unknownUnit
        ∨ e = Err.indexError)
      ∧ get_price st params ex N now parse = errOut α e)
    ∨ (∃ sym tf rng start,
        get_price st params ex N now parse
          = finishGP parse sym (normalize_symbol_for_bucket sym ex) tf rng start now
              (processDays st N tf ex (normalize_symbol_for_bucket sym ex)
                (dayRange start now) (initSt α))) := by
  rcases hM : (splitComma params).map stripC with _ | ⟨a, _ | ⟨b, _ | ⟨c, _ | ⟨d, tl⟩⟩⟩⟩
  · exact Or.inl ⟨.malformedQuery, Or.inl rfl, by unfold get_price; rw [hM]; rfl⟩
  · exact Or.inl ⟨.malformedQuery, Or.inl rfl, by unfold get_price; rw [hM]; rfl⟩
  · exact Or.inl ⟨.malformedQuery, Or.inl rfl, by unfold get_price; rw [hM]; rfl⟩
  · cases hP : parseRangeStart c now with
    | error e =>
      refine Or.inl ⟨e, ?_, ?_⟩
      · rcases parseRangeStart_error_shape c now e hP with h | h | h
        · exact Or.inr (Or.inl h)
        · exact Or.inr (Or.inr (Or.inl h))
        · exact Or.inr (Or.inr (Or.inr h))
      · rw [get_price_split st params ex N now parse a b c hM]
        exact get_price_parts_err st a b c ex N now parse e hP
    | ok start =>
      refine Or.inr ⟨a, b, c, start, ?_⟩
      rw [get_price_split st params ex N now parse a b c hM]
      exact get_price_parts_ok st a b c ex N now parse start hP
  · exact Or.inl ⟨.malformedQuery, Or.inl rfl, by unfold get_price; rw [hM]; rfl⟩

/-! ## Claim C1: the global file-read budget -/

/-- C1.  For every range query with file budget `maxFiles = N > 0`, the
count of successfully decoded reads (`files_read`) never exceeds `N`:
the final count is `≤ N`, every `get_object` fetch is issued while the
shared counter is still `< N`, and every listing request is issued while
the counter is still `< N` — so the moment the budget is reached, the
object iteration, page loop, variant loop and day loop all stop touching
the store. -/
theorem file_budget_respected {α : Type} (st : Store α) (params ex : Str) (N now : Int)
    (parse : α → Option Int) (hN : 0 < N) :
    ((get_price st params ex N now parse).filesRead : Int) ≤ N
    ∧ (∀ x ∈ (get_price st params ex N now parse).fetched, (x.2 : Int) < N)
    ∧ (∀ x ∈ (get_price st params ex N now parse).listed, (x.2 : Int) < N) := by
  rcases get_price_rep st params ex N now parse with ⟨e, _, heq⟩ | ⟨sym, tf, rng, start, heq⟩
  · rw [heq]
    refine ⟨?_, ?_, ?_⟩
    · simp only [errOut]
      omega
    · intro x hx
      simp [errOut] at hx
    · intro x hx
      simp [errOut] at hx
  · rw [heq]
    obtain ⟨hl, hf, _, _, hr⟩ := finishGP_fields parse sym (normalize_symbol_for_bucket sym ex)
      tf rng start now (processDays st N tf ex (normalize_symbol_for_bucket sym ex)
        (dayRange start now) (initSt α))
    refine ⟨?_, ?_, ?_⟩
    · rw [hr]
      refine days_bound st N tf ex _ _ (initSt α) ?_
      simp only [initSt]
      omega
    · rw [hf]
      intro x hx
      rcases days_fetch_below st N tf ex _ _ (initSt α) x hx with hmem | hlt
      · simp [initSt] at hmem
      · exact hlt
    · rw [hl]
      intro x hx
      have h0 : ((initSt α).filesRead : Int) < N := by
        simp only [initSt]
        omega
      rcases days_listed_below st N tf ex _ _ (initSt α) h0 x hx with hmem | hlt
      · simp [initSt] at hmem
      · exact hlt

/-- C1, witness at `batchStore` (five parquet files available) with budget
`N = 2`: applying the theorem at a concrete query. -/
theorem file_budget_respected_witness :
    ((get_price batchStore "CIPLA,15m,1d".data "NSE".data 2 43200 idParse).filesRead : Int) ≤ 2
    ∧ (∀ x ∈ (get_price batchStore "CIPLA,15m,1d".data "NSE".data 2 43200 idParse).fetched,
        (x.2 : Int) < 2)
    ∧ (∀ x ∈ (get_price batchStore "CIPLA,15m,1d".data "NSE".data 2 43200 idParse).listed,
        (x.2 : Int) < 2) :=
  file_budget_respected batchStore "CIPLA,15m,1d".data "NSE".data 2 43200 idParse (by decide)

/-! ## Claim C2: decode-failure recovery -/

/-- C2, counterexample.  The claim says a decode error is recovered locally
on *every* path and never surfaces to the caller as a failure.  On the
direct-key path `get_by_key`, `read_parquet_bytes` is not wrapped in any
try/except (src/main.py line 136): for a store whose key `k` exists but
holds undecodable bytes, the decode error escapes as an unhandled
exception. -/
theorem decode_error_surfaces_on_key_path :
    get_by_key corruptStore "k".data = .error .decodeRaised := by
  decide

/-- C2, amended.  On the *listing* path, decode failures are always
recovered locally: `get_price` never surfaces a decode exception; only
successful decodes increment the shared `files_read` counter (the table
count equals `files_read`, and fetches split exactly into successes plus
skipped keys, the recorded diagnostics); and a concrete batch of five
parquet files with one corrupt member yields exactly the four valid
tables, the corrupt key being skipped.  On the direct-key path, by
contrast, a decode failure on an existing key escapes as an unhandled
exception. -/
theorem decode_recovery_listing_path :
    (∀ (α : Type) (st : Store α) (params ex : Str) (N now : Int) (parse : α → Option Int),
      (get_price st params ex N now parse).result ≠ .error .decodeRaised)
    ∧ (∀ (α : Type) (st : Store α) (N : Int) (tf ex sym : Str) (days : List Int),
        (processDays st N tf ex sym days (initSt α)).tables.length
            = (processDays st N tf ex sym days (initSt α)).filesRead
        ∧ (processDays st N tf ex sym days (initSt α)).fetched.length
            = (processDays st N tf ex sym days (initSt α)).filesRead
                + (processDays st N tf ex sym days (initSt α)).skipped.length)
    ∧ (∀ (α : Type) (st : Store α) (k : Str), st.contains k = true → st.decodeOf k = none →
        get_by_key st k = .error .decodeRaised)
    ∧ ((processDays batchStore 50 "15m".data "NSE".data "NSE_CIPLA-EQ".data [0]
          (initSt Nat)).tables = [natTable 1, natTable 3, natTable 4, natTable 5]
        ∧ (processDays batchStore 50 "15m".data "NSE".data "NSE_CIPLA-EQ".data [0]
            (initSt Nat)).skipped = ["b.parquet".data]
        ∧ (processDays batchStore 50 "15m".data "NSE".data "NSE_CIPLA-EQ".data [0]
            (initSt Nat)).filesRead = 4) := by
  refine ⟨?_, ?_, ?_, by decide⟩
  · intro α st params ex N now parse
    rcases get_price_rep st params ex N now parse with ⟨e, he, heq⟩ | ⟨sym, tf, rng, start, heq⟩
    · rw [heq]
      rcases he with rfl | rfl | rfl | rfl <;> simp [errOut]
    · rw [heq]
      unfold finishGP
      split
      · simp
      · cases hF2 : filterTable (concatTables (processDays st N tf ex
            (normalize_symbol_for_bucket sym ex) (dayRange start now) (initSt α)).tables) with
        | none => simp [hF2]
        | some filtered => simp [hF2]
  · intro α st N tf ex sym days
    have h := days_acct st N tf ex sym days (initSt α)
    simp only [initSt, List.length_nil] at h ⊢
    omega
  · intro α st k hc hd
    simp [get_by_key, hc, hd]

/-- C2, witness: the listing path never reports a decode failure at a
concrete query, while the direct-key path does. -/
theorem decode_recovery_listing_path_witness :
    (get_price emptyStore "CIPLA,15m,1d".data "NSE".data 50 1700000000 idParse).result
        ≠ .error .decodeRaised
    ∧ get_by_key corruptStore "kk".data = .error .keyNotFound
    ∧ (corruptStore.contains "k".data = true
        → corruptStore.decodeOf "k".data = none
        → get_by_key corruptStore "k".data = .error .decodeRaised) := by
  have h := decode_recovery_listing_path
  exact ⟨h.1 Nat emptyStore "CIPLA,15m,1d".data "NSE".data 50 1700000000 idParse,
    by decide,
    fun hc hd => h.2.2.1 Nat corruptStore "k".data hc hd⟩

/-! ## Claim C7: NoDataFound on the empty listing path -/

/-- C7.  On the listing path (valid three-part query, range parses), if
zero tables were successfully decoded across all days and variants the
query fails with `NoDataFound` (404), and a successful response implies at
least one decoded table — never an empty-but-successful listing result. -/
theorem no_data_found_iff_no_tables {α : Type} (st : Store α) (params ex : Str) (N now : Int)
    (parse : α → Option Int) (sym tf rng : Str) (start : Int)
    (hsplit : (splitComma params).map stripC = [sym, tf, rng])
    (hparse : parseRangeStart rng now = .ok start) :
    ((get_price st params ex N now parse).tables = [] →
      (get_price st params ex N now parse).result = .error .noDataFound)
    ∧ (∀ r, (get_price st params ex N now parse).result = .ok r →
        (get_price st params ex N now parse).tables ≠ []) := by
  rw [get_price_split st params ex N now parse sym tf rng hsplit,
    get_price_parts_ok st sym tf rng ex N now parse start hparse]
  unfold finishGP
  by_cases hE : (processDays st N tf ex (normalize_symbol_for_bucket sym ex)
      (dayRange start now) (initSt α)).tables.isEmpty = true
  · rw [if_pos hE]
    exact ⟨fun _ => rfl, fun r hr => absurd hr (by simp)⟩
  · rw [if_neg hE]
    rw [List.isEmpty_iff] at hE
    cases hF : filterTable (concatTables (processDays st N tf ex
        (normalize_symbol_for_bucket sym ex) (dayRange start now) (initSt α)).tables) with
    | none =>
      simp only [hF]
      exact ⟨fun hT => absurd hT hE, fun r _ => hE⟩
    | some filtered =>
      simp only [hF]
      exact ⟨fun hT => absurd hT hE, fun r _ => hE⟩

/-- C7, witness: an empty store yields `NoDataFound` for a valid query. -/
theorem no_data_found_iff_no_tables_witness :
    (get_price emptyStore "CIPLA,15m,1d".data "NSE".data 50 1700000000 idParse).result
      = .error .noDataFound := by
  have h := no_data_found_iff_no_tables emptyStore "CIPLA,15m,1d".data "NSE".data 50 1700000000
    idParse "CIPLA".data "15m".data "1d".data (1700000000 - 1 * 86400) (by decide) (by decide)
  exact h.1 (by decide)

/-! ## Claim C8: timestamp-column selection and row filtering -/

/-- C8, code bug.  The claimed filter semantics is not what the program
does.  Line 115 converts the first candidate column present from the
fixed priority list `[timestamp, ts, time, datetime, date]` with
`pd.to_datetime(..., errors="coerce", utc=True)`, making it tz-aware;
line 116 then compares it against `pd.to_datetime(start)` /
`pd.to_datetime(now)`, which are tz-naive (`datetime.utcnow()`), and
pandas refuses any tz-aware vs tz-naive timestamp comparison.  So
whenever a candidate column is present — regardless of its cell values —
the whole query dies with an unhandled `TypeError` instead of returning
rows filtered to `[start, end]`; only when no candidate column is present
does the query succeed, returning all rows unchanged.  Concretely, a
valid query against a store of decodable objects bearing a `timestamp`
column crashes. -/
theorem filter_typeerror_on_candidate_column :
    (get_price batchStore "CIPLA,15m,1d".data "NSE".data 50 43200 idParse).result
      = .error .typeError
    ∧ (∀ (α : Type) (t : Table α),
        tsCandidates.find? (fun c => t.cols.contains c) = none → filterTable t = some t)
    ∧ (∀ (α : Type) (t : Table α) (c : Str),
        tsCandidates.find? (fun c2 => t.cols.contains c2) = some c → filterTable t = none) := by
  have hgen : ∀ (α : Type) (t : Table α) (l : List Str), coerceFilterLoop t l
      = match l.find? (fun c => t.cols.contains c) with
        | none => some t
        | some _ => none := by
    intro α t l
    induction l with
    | nil => rfl
    | cons cand rest ih =>
      rw [coerceFilterLoop]
      by_cases hc : t.cols.contains cand = true
      · rw [if_pos hc, List.find?_cons_of_pos _ hc]
      · rw [if_neg hc, ih, List.find?_cons_of_neg _ (by simpa using hc)]
  refine ⟨by decide, ?_, ?_⟩
  · intro α t hfind
    unfold filterTable
    rw [hgen α t tsCandidates, hfind]
  · intro α t c hfind
    unfold filterTable
    rw [hgen α t tsCandidates, hfind]

/-- C8, witness: a table with a `timestamp` column makes the filter raise
`TypeError`, while a table with no candidate column passes through with
all rows. -/
theorem filter_typeerror_on_candidate_column_witness :
    filterTable (natTable 1) = none ∧ filterTable plainTable = some plainTable := by
  have h := filter_typeerror_on_candidate_column
  exact ⟨h.2.2 Nat (natTable 1) "timestamp".data (by decide),
    h.2.1 Nat plainTable (by decide)⟩

/-- The two source templates are exactly the shared path template
instantiated at separators `=` and `%3D`. -/
theorem dayPfxs_eq_templates (tf ex sym : Str) (day : Int) :
    dayPfxs tf ex sym day
      = [pfxTemplate "=".data tf ex sym (civilFromDays day).1 (civilFromDays day).2.1
          (civilFromDays day).2.2,
         pfxTemplate "%3D".data tf ex sym (civilFromDays day).1 (civilFromDays day).2.1
          (civilFromDays day).2.2] := by
  have e1 : "processed/timeframe=".data = "processed/timeframe".data ++ "=".data := by decide
  have e2 : "/exchange=".data = "/exchange".data ++ "=".data := by decide
  have e3 : "/symbol=".data = "/symbol".data ++ "=".data := by decide
  have e4 : "/year=".data = "/year".data ++ "=".data := by decide
  have e5 : "/month=".data = "/month".data ++ "=".data := by decide
  have e6 : "/day=".data = "/day".data ++ "=".data := by decide
  have f1 : "processed/timeframe%3D".data = "processed/timeframe".data ++ "%3D".data := by decide
  have f2 : "/exchange%3D".data = "/exchange".data ++ "%3D".data := by decide
  have f3 : "/symbol%3D".data = "/symbol".data ++ "%3D".data := by decide
  have f4 : "/year%3D".data = "/year".data ++ "%3D".data := by decide
  have f5 : "/month%3D".data = "/month".data ++ "%3D".data := by decide
  have f6 : "/day%3D".data = "/day".data ++ "%3D".data := by decide
  unfold dayPfxs pfxTemplate
  rw [e1, e2, e3, e4, e5, e6, f1, f2, f3, f4, f5, f6]
  simp [List.append_assoc]

/-! ## Claim C9: the two prefix variants per day -/

/-- C9.  For every (timeframe, exchange, symbol, day), exactly two
candidate prefixes are produced: both instantiate the template
`processed/timeframe=…/exchange=…/symbol=…/year=…/month=MM/day=DD/` on
that day's civil date with month and day zero-padded to two digits,
differing only in whether the separators render as `=` or `%3D`; the
traversal probes them in fixed order (unencoded first) day by day — its
listing trace is a prefix of the per-day concatenation, and equals it in
full whenever the file budget is never reached. -/
theorem two_variant_probing {α : Type} (st : Store α) (N : Int) (tf ex sym : Str)
    (days : List Int) :
    (∀ day : Int,
      dayPfxs tf ex sym day
        = [pfxTemplate "=".data tf ex sym (civilFromDays day).1 (civilFromDays day).2.1
            (civilFromDays day).2.2,
           pfxTemplate "%3D".data tf ex sym (civilFromDays day).1 (civilFromDays day).2.1
            (civilFromDays day).2.2]
      ∧ (dayPfxs tf ex sym day).length = 2)
    ∧ (processDays st N tf ex sym days (initSt α)).listed.map Prod.fst
        <+: (days.map (dayPfxs tf ex sym)).flatten
    ∧ (((processDays st N tf ex sym days (initSt α)).filesRead : Int) < N →
        (processDays st N tf ex sym days (initSt α)).listed.map Prod.fst
          = (days.map (dayPfxs tf ex sym)).flatten)
    ∧ (∀ n : Fin 100, (pad2 n.val).length = 2) := by
  refine ⟨fun day => ⟨dayPfxs_eq_templates tf ex sym day, rfl⟩, ?_, ?_, by decide⟩
  · obtain ⟨t, ht, hpre⟩ := days_listed_pfx st N tf ex sym days (initSt α)
    rw [ht]
    simpa [initSt] using hpre
  · intro hfin
    have h := days_listed_full st N tf ex sym days (initSt α) hfin
    simpa [initSt] using h

/-- C9, witness: at `batchStore`, budget 50 and the single day 0, the
budget is never reached and the trace equals both variants of that day in
order. -/
theorem two_variant_probing_witness :
    (processDays batchStore 50 "15m".data "NSE".data "NSE_CIPLA-EQ".data [0]
        (initSt Nat)).listed.map Prod.fst
      = (([0] : List Int).map (dayPfxs "15m".data "NSE".data "NSE_CIPLA-EQ".data)).flatten := by
  have h := two_variant_probing batchStore 50 "15m".data "NSE".data "NSE_CIPLA-EQ".data [0]
  exact h.2.2.1 (by decide)

end OhlcvApi
